import Mathlib

/-!
# A Bloom filter in Go (`bloomfilter.go`): shallow embedding and properties

The Go package `bloomfilter` keeps a bitset of 32-bit words and derives four probe
positions per item from a 32-bit FNV-1a hash.  The embedding below follows the source
function by function:

* `uint32` values are natural numbers reduced modulo `2 ^ 32` wherever the source
  arithmetic can wrap; `uint` values are natural numbers, and the only `uint`
  operation that can wrap (`f.n++`) is reduced modulo `uintModulus`;
* the run-time panics of Go (integer division by zero, slice index out of range, a slice
  length past the allocation limit) are explicit: `Add`, `Test` and the call `NewCall` of
  `New` return `Except Panic _`, and `New` is the filter that the call returns;
* the receiver `*BloomFilter` that `Add` mutates in place is passed and returned;
* `EstimatedFillRatio` is written over any carrier of the `float64` values, with the
  conversion `float64(_)` and `math.Exp` as parameters, and is read over the real numbers
  in its properties.
-/

namespace Bloomfilter

/-! ## Data model -/

/-- Run-time panics that the integer and slice operations of the source can raise:
`integer divide by zero`, `index out of range` and `makeslice: len out of range`. -/
inductive Panic where
  | divideByZero
  | indexOutOfRange
  | makesliceLen
  deriving DecidableEq, Repr

deriving instance DecidableEq for Except

/-- An item is the byte sequence `[]byte(item)` of a Go string. -/
abbrev Item := List (Fin 256)

/-- Number of values of the Go type `uint` (64-bit platform). -/
def uintModulus : Nat := 2 ^ 64

/-- Number of values of the Go type `uint32`. -/
def uint32Modulus : Nat := 2 ^ 32

/-- The struct `BloomFilter` of the source: `bitset []uint32` and four `uint` fields. -/
structure BloomFilter where
  bitset : List Nat
  m : Nat
  k : Nat
  n : Nat
  b : Nat
  deriving DecidableEq, Repr

/-! ## Hashing -/

/-- The 32-bit FNV offset basis of the Go standard library (`hash/fnv`). -/
def offset32 : Nat := 2166136261

/-- The 32-bit FNV prime of the Go standard library (`hash/fnv`). -/
def prime32 : Nat := 16777619

/-- The function `hashFNV1a` of the source: `fnv.New32a()`, `Write(input)`, `Sum32()`.
The standard library starts from `offset32` and, for every byte `c`, computes
`hash ^= c; hash *= prime32` on `uint32`. -/
def hashFNV1a (input : Item) : Nat :=
  input.foldl (fun hash c => ((hash ^^^ c.val) * prime32) % uint32Modulus) offset32

/-! ## Operations -/

/-- The filter that the function `New` of the source returns: `size / 32` zero words,
`m = size`, `k = 4`, `n = 0`, `b = size / 32`. -/
def New (size : Nat) : BloomFilter :=
  { bitset := List.replicate (size / 32) 0
    m := size
    k := 4
    n := 0
    b := size / 32 }

/-- The expression `uint((hash1 + hash2*uint32(i))) % f.m` of `Add` and `Test`: the
product and the sum wrap on `uint32`, and the remainder panics when `f.m` is zero. -/
def probeIndex (f : BloomFilter) (hash1 hash2 i : Nat) : Except Panic Nat :=
  if f.m = 0 then .error .divideByZero
  else .ok (((hash1 + (hash2 * (i % uint32Modulus)) % uint32Modulus) % uint32Modulus) % f.m)

/-- The expression `(index / 32) % f.b` of `Add` and `Test`: the remainder panics when
`f.b` is zero. -/
def probeBucket (f : BloomFilter) (index : Nat) : Except Panic Nat :=
  if f.b = 0 then .error .divideByZero
  else .ok ((index / 32) % f.b)

/-- One iteration of the loop of `Add`:
`index := ...; bucket := ...; f.bitset[bucket] |= (1 << uint(index%32))`. -/
def addStep (hash1 hash2 : Nat) (f : BloomFilter) (i : Nat) : Except Panic BloomFilter :=
  match probeIndex f hash1 hash2 i with
  | .error e => .error e
  | .ok index =>
    match probeBucket f index with
    | .error e => .error e
    | .ok bucket =>
      match f.bitset[bucket]? with
      | none => .error .indexOutOfRange
      | some w => .ok { f with bitset := f.bitset.set bucket (w ||| (1 <<< (index % 32))) }

/-- The loop `for i := uint(0); i < f.k; i++` of `Add`, over the remaining values of `i`. -/
def addLoop (hash1 hash2 : Nat) (f : BloomFilter) : List Nat → Except Panic BloomFilter
  | [] => .ok f
  | i :: rest =>
    match addStep hash1 hash2 f i with
    | .error e => .error e
    | .ok g => addLoop hash1 hash2 g rest

/-- The method `Add` of the source: both hashes are `hashFNV1a` of the item, the loop
sets one bit per `i < f.k`, and `f.n++` wraps on `uint`. -/
def BloomFilter.Add (f : BloomFilter) (item : Item) : Except Panic BloomFilter :=
  let hash1 := hashFNV1a item
  let hash2 := hashFNV1a item
  match addLoop hash1 hash2 f (List.range f.k) with
  | .error e => .error e
  | .ok g => .ok { g with n := (g.n + 1) % uintModulus }

/-- The loop of `Test` over the remaining values of `i`: the first set probe bit ends
the loop with `exists = true` (`break`); running out of values leaves `exists = false`. -/
def testLoop (f : BloomFilter) (hash1 hash2 : Nat) : List Nat → Except Panic Bool
  | [] => .ok false
  | i :: rest =>
    match probeIndex f hash1 hash2 i with
    | .error e => .error e
    | .ok index =>
      match probeBucket f index with
      | .error e => .error e
      | .ok bucket =>
        match f.bitset[bucket]? with
        | none => .error .indexOutOfRange
        | some w =>
          if w &&& (1 <<< (index % 32)) ≠ 0 then .ok true
          else testLoop f hash1 hash2 rest

/-- The method `Test` of the source. -/
def BloomFilter.Test (f : BloomFilter) (item : Item) : Except Panic Bool :=
  let hash1 := hashFNV1a item
  let hash2 := hashFNV1a item
  testLoop f hash1 hash2 (List.range f.k)

/-- A caller adding the items of a list one after the other, stopping at the first panic. -/
def addAll (f : BloomFilter) : List Item → Except Panic BloomFilter
  | [] => .ok f
  | x :: rest =>
    match f.Add x with
    | .error e => .error e
    | .ok g => addAll g rest

/-- Bit `j` of word `w` of a bitset is set (a word outside the bitset has no bit set). -/
def bitAt (bits : List Nat) (w j : Nat) : Bool :=
  (bits.getD w 0).testBit j

/-- The method `EstimatedFillRatio` of the source,
`1 - math.Exp((-float64(f.n)*float64(f.k))/float64(f.m))`, over any carrier `F` of the
`float64` values: `ofUint` is the conversion `float64(_)` and `exp` is `math.Exp`. -/
def BloomFilter.EstimatedFillRatio {F : Type} [One F] [Neg F] [Mul F] [Div F] [Sub F]
    (ofUint : Nat → F) (exp : F → F) (f : BloomFilter) : F :=
  1 - exp ((-(ofUint f.n) * ofUint f.k) / ofUint f.m)

/-- A test of the source: `f := New(size)`, `f.Add` of every item of `xs`, then `f.Test(y)`. -/
def testAfter (size : Nat) (xs : List Item) (y : Item) : Except Panic Bool :=
  match addAll (New size) xs with
  | .error e => .error e
  | .ok g => g.Test y

/-- The word and the bit that `Add` and `Test` address for a logical index:
`bucket := (index / 32) % f.b` and `index % 32`. -/
def physical (b index : Nat) : Nat × Nat :=
  ((index / 32) % b, index % 32)

/-- The probe index in the words of the specification: `(((i + 1) * h) mod 2^32) mod m`. -/
def specIndex (h m i : Nat) : Nat :=
  (((i + 1) * h) % 2 ^ 32) % m

/-! ## Items of the tests of the source, as bytes -/

/-- The bytes of the string `"costarring"`. -/
def costarring : Item := [99, 111, 115, 116, 97, 114, 114, 105, 110, 103]

/-- The bytes of the string `"declinate"`. -/
def declinate : Item := [100, 101, 99, 108, 105, 110, 97, 116, 101]

/-- The bytes of the string `"altarage"`. -/
def altarage : Item := [97, 108, 116, 97, 114, 97, 103, 101]

/-- The bytes of the string `"altarages"`. -/
def altarages : Item := [97, 108, 116, 97, 114, 97, 103, 101, 115]

/-- The bytes of the string `"liquid"`. -/
def liquid : Item := [108, 105, 113, 117, 105, 100]

/-- The bytes of the string `"macallums"`. -/
def macallums : Item := [109, 97, 99, 97, 108, 108, 117, 109, 115]

/-- The bytes of the string `"zinke"`. -/
def zinke : Item := [122, 105, 110, 107, 101]

/-- The bytes of the string `"zinkes"`. -/
def zinkes : Item := [122, 105, 110, 107, 101, 115]

/-- The bytes of the string `"Bess"`. -/
def Bess : Item := [66, 101, 115, 115]

/-- The bytes of the string `"Jane"`. -/
def Jane : Item := [74, 97, 110, 101]

/-- The bytes of the string `"abc"`. -/
def abc : Item := [97, 98, 99]

/-- The bytes of the string `"wtf"`. -/
def wtf : Item := [119, 116, 102]

/-- The four bytes of `binary.BigEndian.PutUint32(_, 100)`. -/
def bigEndian100 : Item := [0, 0, 0, 100]

/-- The four bytes of `binary.BigEndian.PutUint32(_, 101)`. -/
def bigEndian101 : Item := [0, 0, 0, 101]

/-- The four bytes of `binary.BigEndian.PutUint32(_, 102)`. -/
def bigEndian102 : Item := [0, 0, 0, 102]

/-- The four bytes of `binary.BigEndian.PutUint32(_, 103)`. -/
def bigEndian103 : Item := [0, 0, 0, 103]

/-- The bytes of the Go conversion `string(i)` of an integer `i` below `0x800`, as the tests
of the source use it: the UTF-8 encoding of the code point `i`, one byte below `0x80` and two
bytes from there. Larger integers, which the tests never convert, are not modelled. -/
def runeString (i : Nat) : Item :=
  if i < 128 then [Fin.ofNat i]
  else [Fin.ofNat (192 + i / 64), Fin.ofNat (128 + i % 64)]

/-! ## Derived forms used in the proofs -/

/-- The value computed by `probeIndex` when `m` is not zero. -/
def indexOf (m hash1 hash2 i : Nat) : Nat :=
  ((hash1 + (hash2 * (i % uint32Modulus)) % uint32Modulus) % uint32Modulus) % m

/-- Word index of the `i`-th probe: the value computed by `probeBucket` on `indexOf`. -/
def bucketOf (m b hash1 hash2 i : Nat) : Nat :=
  (indexOf m hash1 hash2 i / 32) % b

/-- Bit offset of the `i`-th probe. -/
def offsetOf (m hash1 hash2 i : Nat) : Nat :=
  indexOf m hash1 hash2 i % 32

/-- The bitset with bit `q` of word `p` OR-ed in. -/
def orBit (bits : List Nat) (p q : Nat) : List Nat :=
  bits.set p (bits.getD p 0 ||| 2 ^ q)

/-- The bitset after the loop of `Add` has run over the values `is` of `i`. -/
def orProbes (m b hash1 hash2 : Nat) (is : List Nat) (bits : List Nat) : List Nat :=
  is.foldl (fun acc i => orBit acc (bucketOf m b hash1 hash2 i) (offsetOf m hash1 hash2 i)) bits

/-- Some probe among the values `is` of `i` addresses bit `j` of word `w`. -/
def hitsProbe (m b hash1 hash2 : Nat) (is : List Nat) (w j : Nat) : Bool :=
  is.any (fun i => decide (w = bucketOf m b hash1 hash2 i ∧ j = offsetOf m hash1 hash2 i))

/-- The shape every filter built by `New (size)` with `32 ≤ size` keeps under `Add`. -/
structure Sound (f : BloomFilter) : Prop where
  hm : 32 ≤ f.m
  hb : f.b = f.m / 32
  hlen : f.bitset.length = f.b

/-- The filter that `Add` returns on a filter of sound shape, for an item of hash `h`. -/
def added (f : BloomFilter) (h : Nat) : BloomFilter :=
  { f with
    bitset := orProbes f.m f.b h h (List.range f.k) f.bitset
    n := (f.n + 1) % uintModulus }

/-! ## Lemmas on bits and words -/

theorem and_one_shiftLeft_ne_zero (w q : Nat) : w &&& (1 <<< q) ≠ 0 ↔ w.testBit q = true := by
  rw [Nat.one_shiftLeft]
  constructor
  · intro h
    obtain ⟨i, hi⟩ := Nat.ne_zero_implies_bit_true h
    rw [Nat.testBit_and, Nat.testBit_two_pow] at hi
    simp only [Bool.and_eq_true, decide_eq_true_eq] at hi
    rw [hi.2]; exact hi.1
  · intro h h0
    have : (w &&& 2 ^ q).testBit q = true := by
      rw [Nat.testBit_and, Nat.testBit_two_pow, h]; simp
    rw [h0] at this
    simp at this

theorem length_orBit (bits : List Nat) (p q : Nat) : (orBit bits p q).length = bits.length := by
  simp [orBit]

theorem bitAt_orBit (bits : List Nat) (p q w j : Nat) (hp : p < bits.length) :
    bitAt (orBit bits p q) w j = (bitAt bits w j || decide (w = p ∧ j = q)) := by
  unfold bitAt orBit
  by_cases hwp : w = p
  · subst hwp
    simp [List.getD_eq_getElem?_getD, List.getElem?_set, hp, Nat.testBit_two_pow, eq_comm]
  · have hpw : ¬ p = w := fun h => hwp h.symm
    simp [List.getD_eq_getElem?_getD, List.getElem?_set, hwp, hpw]

theorem bitAt_of_length_le (bits : List Nat) (w j : Nat) (hw : bits.length ≤ w) :
    bitAt bits w j = false := by
  simp [bitAt, List.getD_eq_getElem?_getD, List.getElem?_eq_none hw]

theorem getD_lt_of_bitAt (bits : List Nat) (w j : Nat) (h : bitAt bits w j = true) :
    w < bits.length := by
  by_contra hw
  rw [bitAt_of_length_le bits w j (Nat.le_of_not_lt hw)] at h
  exact Bool.false_ne_true h

/-- Two bitsets of the same length with the same bits are the same list of words. -/
theorem bits_ext (xs ys : List Nat) (hlen : xs.length = ys.length)
    (h : ∀ w j, bitAt xs w j = bitAt ys w j) : xs = ys := by
  apply List.ext_getElem hlen
  intro w h1 h2
  apply Nat.eq_of_testBit_eq
  intro j
  have := h w j
  simpa [bitAt, List.getD_eq_getElem?_getD, List.getElem?_eq_getElem h1,
    List.getElem?_eq_getElem h2] using this


/-! ## Lemmas on the loops -/

theorem bucketOf_lt (m b hash1 hash2 i : Nat) (hb : b ≠ 0) : bucketOf m b hash1 hash2 i < b :=
  Nat.mod_lt _ (Nat.pos_of_ne_zero hb)

theorem offsetOf_lt (m hash1 hash2 i : Nat) : offsetOf m hash1 hash2 i < 32 :=
  Nat.mod_lt _ (by decide)

theorem indexOf_small (m hash1 hash2 i : Nat) (hi : i < 4) :
    indexOf m hash1 hash2 i = ((hash1 + hash2 * i) % 2 ^ 32) % m := by
  have h4 : i % uint32Modulus = i := Nat.mod_eq_of_lt (by unfold uint32Modulus; omega)
  unfold indexOf
  rw [h4, Nat.add_mod_mod]
  rfl

theorem Sound.m_ne (hf : Sound f) : f.m ≠ 0 := by
  have := hf.hm
  omega

theorem Sound.b_ne (hf : Sound f) : f.b ≠ 0 := by
  have h1 := hf.hm
  have h2 := hf.hb
  omega

theorem probeIndex_eq (f : BloomFilter) (hash1 hash2 i : Nat) (hm : f.m ≠ 0) :
    probeIndex f hash1 hash2 i = .ok (indexOf f.m hash1 hash2 i) := by
  unfold probeIndex indexOf
  rw [if_neg hm]

theorem probeBucket_eq (f : BloomFilter) (hash1 hash2 i : Nat) (hb : f.b ≠ 0) :
    probeBucket f (indexOf f.m hash1 hash2 i) = .ok (bucketOf f.m f.b hash1 hash2 i) := by
  unfold probeBucket bucketOf
  rw [if_neg hb]

theorem getElem?_bucketOf (f : BloomFilter) (hash1 hash2 i : Nat) (hb : f.b ≠ 0)
    (hlen : f.bitset.length = f.b) :
    f.bitset[bucketOf f.m f.b hash1 hash2 i]?
      = some (f.bitset.getD (bucketOf f.m f.b hash1 hash2 i) 0) := by
  have hlt : bucketOf f.m f.b hash1 hash2 i < f.bitset.length := by
    rw [hlen]; exact bucketOf_lt _ _ _ _ _ hb
  simp [List.getD_eq_getElem?_getD, List.getElem?_eq_getElem hlt]

theorem addStep_eq (f : BloomFilter) (hash1 hash2 i : Nat) (hm : f.m ≠ 0) (hb : f.b ≠ 0)
    (hlen : f.bitset.length = f.b) :
    addStep hash1 hash2 f i = .ok { f with
      bitset := orBit f.bitset (bucketOf f.m f.b hash1 hash2 i) (offsetOf f.m hash1 hash2 i) } := by
  simp only [addStep, probeIndex_eq f hash1 hash2 i hm, probeBucket_eq f hash1 hash2 i hb,
    getElem?_bucketOf f hash1 hash2 i hb hlen, Nat.one_shiftLeft]
  rfl

theorem length_orProbes (m b hash1 hash2 : Nat) (is : List Nat) (bits : List Nat) :
    (orProbes m b hash1 hash2 is bits).length = bits.length := by
  induction is generalizing bits with
  | nil => rfl
  | cons i rest ih =>
    show (orProbes m b hash1 hash2 rest (orBit bits _ _)).length = bits.length
    rw [ih, length_orBit]

theorem bitAt_orProbes (m b hash1 hash2 : Nat) (is : List Nat) (bits : List Nat) (w j : Nat)
    (hb : b ≠ 0) (hlen : bits.length = b) :
    bitAt (orProbes m b hash1 hash2 is bits) w j
      = (bitAt bits w j || hitsProbe m b hash1 hash2 is w j) := by
  induction is generalizing bits with
  | nil => simp [orProbes, hitsProbe]
  | cons i rest ih =>
    show bitAt (orProbes m b hash1 hash2 rest (orBit bits _ _)) w j = _
    rw [ih _ (by rw [length_orBit, hlen]),
      bitAt_orBit _ _ _ _ _ (by rw [hlen]; exact bucketOf_lt _ _ _ _ _ hb)]
    simp [hitsProbe, Bool.or_assoc]

theorem addLoop_eq (hash1 hash2 : Nat) (is : List Nat) (f : BloomFilter) (hm : f.m ≠ 0)
    (hb : f.b ≠ 0) (hlen : f.bitset.length = f.b) :
    addLoop hash1 hash2 f is
      = .ok { f with bitset := orProbes f.m f.b hash1 hash2 is f.bitset } := by
  induction is generalizing f with
  | nil => rfl
  | cons i rest ih =>
    have hrest := ih { f with
      bitset := orBit f.bitset (bucketOf f.m f.b hash1 hash2 i) (offsetOf f.m hash1 hash2 i) }
      hm hb (by simp only [length_orBit]; exact hlen)
    simp only [addLoop, addStep_eq f hash1 hash2 i hm hb hlen, hrest]
    rfl

theorem testLoop_eq (hash1 hash2 : Nat) (is : List Nat) (f : BloomFilter) (hm : f.m ≠ 0)
    (hb : f.b ≠ 0) (hlen : f.bitset.length = f.b) :
    testLoop f hash1 hash2 is
      = .ok (is.any (fun i =>
          bitAt f.bitset (bucketOf f.m f.b hash1 hash2 i) (offsetOf f.m hash1 hash2 i))) := by
  induction is with
  | nil => rfl
  | cons i rest ih =>
    simp only [testLoop, probeIndex_eq f hash1 hash2 i hm, probeBucket_eq f hash1 hash2 i hb,
      getElem?_bucketOf f hash1 hash2 i hb hlen, and_one_shiftLeft_ne_zero, List.any_cons]
    by_cases h : bitAt f.bitset (bucketOf f.m f.b hash1 hash2 i) (offsetOf f.m hash1 hash2 i)
        = true
    · have h2 := h
      unfold bitAt offsetOf at h2
      rw [if_pos h2, h]
      rfl
    · have h2 := h
      unfold bitAt offsetOf at h2
      rw [if_neg h2, ih]
      rw [Bool.not_eq_true] at h
      rw [h]
      rfl


/-! ## Lemmas on `New`, `Add`, `Test` and sequences of `Add` -/

theorem sound_New (size : Nat) (hsize : 32 ≤ size) : Sound (New size) :=
  ⟨hsize, rfl, by simp [New]⟩

theorem Sound.added (hf : Sound f) (h : Nat) : Sound (added f h) :=
  ⟨hf.hm, hf.hb, by simp only [Bloomfilter.added, length_orProbes]; exact hf.hlen⟩

theorem Add_eq (hf : Sound f) (x : Item) : f.Add x = .ok (added f (hashFNV1a x)) := by
  simp only [BloomFilter.Add, addLoop_eq _ _ _ f hf.m_ne hf.b_ne hf.hlen]
  rfl

theorem Test_eq (hf : Sound f) (x : Item) :
    f.Test x = .ok ((List.range f.k).any (fun i =>
      bitAt f.bitset (bucketOf f.m f.b (hashFNV1a x) (hashFNV1a x) i)
        (offsetOf f.m (hashFNV1a x) (hashFNV1a x) i))) := by
  simp only [BloomFilter.Test, testLoop_eq _ _ _ f hf.m_ne hf.b_ne hf.hlen]

theorem bitAt_added (hf : Sound f) (h w j : Nat) :
    bitAt (added f h).bitset w j
      = (bitAt f.bitset w j || hitsProbe f.m f.b h h (List.range f.k) w j) :=
  bitAt_orProbes _ _ _ _ _ _ _ _ hf.b_ne hf.hlen

/-- For `i < 4` the wrapped sum of the source is `(hash1 + hash2 * i) % 2 ^ 32`. -/
theorem hitsProbe_four (m b h w j : Nat) :
    hitsProbe m b h h (List.range 4) w j = true ↔
      ∃ i, i < 4 ∧ w = ((h + h * i) % 2 ^ 32 % m / 32) % b ∧ j = (h + h * i) % 2 ^ 32 % m % 32 := by
  simp only [hitsProbe, List.any_eq_true, List.mem_range, decide_eq_true_eq]
  constructor
  · rintro ⟨i, hi, hw, hj⟩
    refine ⟨i, hi, ?_, ?_⟩
    · rw [hw, bucketOf, indexOf_small _ _ _ _ hi]
    · rw [hj, offsetOf, indexOf_small _ _ _ _ hi]
  · rintro ⟨i, hi, hw, hj⟩
    refine ⟨i, hi, ?_, ?_⟩
    · rw [hw, bucketOf, indexOf_small _ _ _ _ hi]
    · rw [hj, offsetOf, indexOf_small _ _ _ _ hi]

theorem any_probe_four (bits : List Nat) (m b h : Nat) :
    (List.range 4).any (fun i => bitAt bits (bucketOf m b h h i) (offsetOf m h h i)) = true ↔
      ∃ i, i < 4 ∧
        bitAt bits (((h + h * i) % 2 ^ 32 % m / 32) % b) ((h + h * i) % 2 ^ 32 % m % 32) = true := by
  simp only [List.any_eq_true, List.mem_range]
  constructor
  · rintro ⟨i, hi, hbit⟩
    refine ⟨i, hi, ?_⟩
    rw [bucketOf, offsetOf, indexOf_small _ _ _ _ hi] at hbit
    exact hbit
  · rintro ⟨i, hi, hbit⟩
    refine ⟨i, hi, ?_⟩
    rw [bucketOf, offsetOf, indexOf_small _ _ _ _ hi]
    exact hbit

/-- Every probe bit of an item is set in the filter that `Add` returns. -/
theorem bitAt_added_probe (hf : Sound f) (h i : Nat) (hi : i < f.k) :
    bitAt (added f h).bitset (bucketOf f.m f.b h h i) (offsetOf f.m h h i) = true := by
  rw [bitAt_added hf, Bool.or_eq_true]
  right
  simp only [hitsProbe, List.any_eq_true, List.mem_range, decide_eq_true_eq]
  exact ⟨i, hi, rfl, rfl⟩

/-- The filter after a sequence of `Add` calls: shape, counter and bits. -/
theorem addAll_eq (xs : List Item) (f : BloomFilter) (hf : Sound f) :
    ∃ g, addAll f xs = .ok g ∧ Sound g ∧ g.m = f.m ∧ g.b = f.b ∧ g.k = f.k
      ∧ g.n = Nat.iterate (fun n => (n + 1) % uintModulus) xs.length f.n
      ∧ ∀ w j, bitAt g.bitset w j = (bitAt f.bitset w j ||
          xs.any (fun x =>
            hitsProbe f.m f.b (hashFNV1a x) (hashFNV1a x) (List.range f.k) w j)) := by
  induction xs generalizing f with
  | nil =>
    refine ⟨f, rfl, hf, rfl, rfl, rfl, rfl, ?_⟩
    intro w j; simp
  | cons x rest ih =>
    obtain ⟨g, hg, hs, hgm, hgb, hgk, hgn, hbits⟩ := ih (added f (hashFNV1a x)) (hf.added _)
    refine ⟨g, ?_, hs, hgm, hgb, hgk, ?_, ?_⟩
    · simp only [addAll, Add_eq hf, hg]
    · rw [hgn]
      rfl
    · intro w j
      rw [hbits, bitAt_added hf]
      simp [Bloomfilter.added, Bool.or_assoc]


/-- Counting `k` calls of `f.n++` from `n` without reaching the end of `uint`. -/
theorem iterate_incr (k n : Nat) (h : n + k < uintModulus) :
    Nat.iterate (fun n => (n + 1) % uintModulus) k n = n + k := by
  induction k generalizing n with
  | zero => rfl
  | succ k ih =>
    rw [Function.iterate_succ_apply, Nat.mod_eq_of_lt (by omega), ih (n + 1) (by omega)]
    omega

theorem addAll_append (xs ys : List Item) (f g : BloomFilter) (h : addAll f xs = .ok g) :
    addAll f (xs ++ ys) = addAll g ys := by
  induction xs generalizing f with
  | nil =>
    simp only [addAll, Except.ok.injEq] at h
    rw [h]; rfl
  | cons x rest ih =>
    simp only [List.cons_append, addAll] at h ⊢
    cases hx : f.Add x with
    | error e => rw [hx] at h; cases h
    | ok f1 =>
      rw [hx] at h
      simp only at h ⊢
      exact ih f1 h


theorem any_perm {α : Type} (p : α → Bool) (xs ys : List α) (h : xs.Perm ys) :
    xs.any p = ys.any p := by
  rw [Bool.eq_iff_iff, List.any_eq_true, List.any_eq_true]
  constructor
  · rintro ⟨a, ha, hpa⟩
    exact ⟨a, h.mem_iff.mp ha, hpa⟩
  · rintro ⟨a, ha, hpa⟩
    exact ⟨a, h.mem_iff.mpr ha, hpa⟩

/-- On filters of sound shape, `Test` reads only `m`, `b`, `k` and the bits. -/
theorem Test_congr (hf : Sound f) (hg : Sound g) (hm : g.m = f.m) (hb : g.b = f.b)
    (hk : g.k = f.k) (hbits : g.bitset = f.bitset) (y : Item) : g.Test y = f.Test y := by
  rw [Test_eq hf, Test_eq hg, hm, hb, hk, hbits]

/-- On filters of sound shape with the same `m`, `b` and `k`, more bits keep `Test` true. -/
theorem Test_mono (hf : Sound f) (hg : Sound g) (hm : g.m = f.m) (hb : g.b = f.b)
    (hk : g.k = f.k) (hbits : ∀ w j, bitAt f.bitset w j = true → bitAt g.bitset w j = true)
    (y : Item) (hy : f.Test y = .ok true) : g.Test y = .ok true := by
  rw [Test_eq hf] at hy
  rw [Test_eq hg, hm, hb, hk]
  congr 1
  have hany := Except.ok.inj hy
  rw [List.any_eq_true] at hany ⊢
  obtain ⟨i, hi, hbit⟩ := hany
  exact ⟨i, hi, hbits _ _ hbit⟩

theorem bitAt_added_of_bitAt (hf : Sound f) (h w j : Nat) (hbit : bitAt f.bitset w j = true) :
    bitAt (added f h).bitset w j = true := by
  rw [bitAt_added hf, hbit]
  rfl

/-- Adding an item whose probe bits are all set leaves the bits as they are. -/
theorem bitAt_added_added (hf : Sound f) (h w j : Nat) :
    bitAt (added (added f h) h).bitset w j = bitAt (added f h).bitset w j := by
  rw [bitAt_added (hf.added h), bitAt_added hf]
  show (_ || hitsProbe f.m f.b h h (List.range f.k) w j) = _
  rw [Bool.or_assoc, Bool.or_self]

theorem Add_n (f g : BloomFilter) (x : Item) (h : f.Add x = .ok g) :
    g.n = (f.n + 1) % uintModulus := by
  unfold BloomFilter.Add at h
  simp only at h
  cases hloop : addLoop (hashFNV1a x) (hashFNV1a x) f (List.range f.k) with
  | error e => rw [hloop] at h; cases h
  | ok f1 =>
    rw [hloop] at h
    have hg := Except.ok.inj h
    have hn : ∀ (is : List Nat) (a c : BloomFilter),
        addLoop (hashFNV1a x) (hashFNV1a x) a is = .ok c → c.n = a.n := by
      intro is
      induction is with
      | nil =>
        intro a c hac
        rw [← Except.ok.inj hac]
      | cons i rest ih =>
        intro a c hac
        simp only [addLoop] at hac
        cases hstep : addStep (hashFNV1a x) (hashFNV1a x) a i with
        | error e => rw [hstep] at hac; cases hac
        | ok a1 =>
          rw [hstep] at hac
          have h1 : a1.n = a.n := by
            unfold addStep at hstep
            split at hstep
            · cases hstep
            · split at hstep
              · cases hstep
              · split at hstep
                · cases hstep
                · rw [← Except.ok.inj hstep]
          rw [ih a1 c hac, h1]
    rw [← hg]
    show (f1.n + 1) % uintModulus = _
    rw [hn _ f f1 hloop]

/-! ## Properties of the filter -/

/-- C1: no false negatives. On the filter built by `New (size)` with `32 ≤ size`, after any
items `xs` have been added, then `x`, then any items `ys`, every `Add` has returned and
`Test (x)` returns `true`. -/
theorem no_false_negatives (size : Nat) (hsize : 32 ≤ size) (xs : List Item) (x : Item)
    (ys : List Item) :
    ∃ g, addAll (New size) (xs ++ x :: ys) = .ok g ∧ g.Test x = .ok true := by
  obtain ⟨f1, h1, hs1, -, -, hk1, -, -⟩ := addAll_eq xs (New size) (sound_New size hsize)
  have hs2 : Sound (added f1 (hashFNV1a x)) := hs1.added _
  obtain ⟨g, hg, hsg, hgm, hgb, hgk, -, hbits⟩ := addAll_eq ys _ hs2
  refine ⟨g, ?_, ?_⟩
  · rw [addAll_append xs (x :: ys) _ f1 h1]
    simp only [addAll, Add_eq hs1, hg]
  · rw [Test_eq hsg]
    congr 1
    rw [List.any_eq_true]
    refine ⟨0, ?_, ?_⟩
    · rw [List.mem_range, hgk]
      show 0 < f1.k
      rw [hk1]
      exact Nat.succ_pos 3
    · rw [hbits, Bool.or_eq_true]
      left
      rw [hgm, hgb]
      exact bitAt_added_probe hs1 _ 0 (by rw [hk1]; exact Nat.succ_pos 3)

/-- Witness of C1 on `New (64)`: the item `a` added between `b` and `c`. -/
theorem no_false_negatives_witness :
    32 ≤ 64 ∧ ∃ g, addAll (New 64) ([[98]] ++ [97] :: [[99]]) = .ok g ∧ g.Test [97] = .ok true :=
  ⟨by decide, no_false_negatives 64 (by decide) [[98]] [97] [[99]]⟩

/-- C2: on a filter with `32 ≤ m`, `b = m / 32`, `len (bitset) = b` and `k = 4`, `Test (x)`
returns `true` exactly when one of the four probe bits of `x` (word `(index_i / 32) % b`,
bit `index_i % 32`, with `index_i = (h + h * i) % 2 ^ 32 % m` and `h = hashFNV1a (x)`) is set,
and returns `false` exactly when all four are unset. -/
theorem Test_true_iff_probe_set (f : BloomFilter) (x : Item) (hm : 32 ≤ f.m)
    (hb : f.b = f.m / 32) (hlen : f.bitset.length = f.b) (hk : f.k = 4) :
    (f.Test x = .ok true ↔
      ∃ i, i < 4 ∧ bitAt f.bitset
        (((hashFNV1a x + hashFNV1a x * i) % 2 ^ 32 % f.m / 32) % f.b)
        ((hashFNV1a x + hashFNV1a x * i) % 2 ^ 32 % f.m % 32) = true)
    ∧ (f.Test x = .ok false ↔
      ∀ i, i < 4 → bitAt f.bitset
        (((hashFNV1a x + hashFNV1a x * i) % 2 ^ 32 % f.m / 32) % f.b)
        ((hashFNV1a x + hashFNV1a x * i) % 2 ^ 32 % f.m % 32) = false) := by
  have hf : Sound f := ⟨hm, hb, hlen⟩
  have hiff := any_probe_four f.bitset f.m f.b (hashFNV1a x)
  rw [Test_eq hf, hk]
  constructor
  · rw [← hiff]
    exact ⟨fun h => Except.ok.inj h, fun h => congrArg Except.ok h⟩
  · constructor
    · intro h i hi
      have hany := Except.ok.inj h
      cases hbit : bitAt f.bitset
          (((hashFNV1a x + hashFNV1a x * i) % 2 ^ 32 % f.m / 32) % f.b)
          ((hashFNV1a x + hashFNV1a x * i) % 2 ^ 32 % f.m % 32) with
      | false => rfl
      | true =>
        have := hiff.mpr ⟨i, hi, hbit⟩
        rw [hany] at this
        exact absurd this Bool.false_ne_true
    · intro h
      congr 1
      rw [← Bool.not_eq_true]
      intro hany
      obtain ⟨i, hi, hbit⟩ := hiff.mp hany
      rw [h i hi] at hbit
      exact Bool.false_ne_true hbit

/-- Witness of C2 on the empty filter `New (64)` and the item `a`. -/
theorem Test_true_iff_probe_set_witness :
    ((New 64).Test [97] = .ok true ↔
      ∃ i, i < 4 ∧ bitAt (New 64).bitset
        (((hashFNV1a [97] + hashFNV1a [97] * i) % 2 ^ 32 % (New 64).m / 32) % (New 64).b)
        ((hashFNV1a [97] + hashFNV1a [97] * i) % 2 ^ 32 % (New 64).m % 32) = true)
    ∧ ((New 64).Test [97] = .ok false ↔
      ∀ i, i < 4 → bitAt (New 64).bitset
        (((hashFNV1a [97] + hashFNV1a [97] * i) % 2 ^ 32 % (New 64).m / 32) % (New 64).b)
        ((hashFNV1a [97] + hashFNV1a [97] * i) % 2 ^ 32 % (New 64).m % 32) = false) :=
  Test_true_iff_probe_set (New 64) [97] (by decide) (by decide) (by decide) (by decide)

/-- C3: on a filter with `32 ≤ m`, `b = m / 32`, `len (bitset) = b` and `k = 4`, `Add (x)`
returns a filter whose bitset has the same length and is the old bitset with the four probe
bits of `x` OR-ed in: bit `j` of word `w` is set afterwards exactly when it was set before or
`(w, j) = ((index_i / 32) % b, index_i % 32)` for some `i < 4`, where
`index_i = (h1 + h2 * i) % 2 ^ 32 % m` and `h1 = h2 = hashFNV1a (x)`. -/
theorem Add_sets_exactly_probe_bits (f : BloomFilter) (x : Item) (hm : 32 ≤ f.m)
    (hb : f.b = f.m / 32) (hlen : f.bitset.length = f.b) (hk : f.k = 4) :
    ∃ g, f.Add x = .ok g ∧ g.bitset.length = f.bitset.length ∧
      ∀ w j, (bitAt g.bitset w j = true ↔
        bitAt f.bitset w j = true ∨
        ∃ i, i < 4 ∧ w = ((hashFNV1a x + hashFNV1a x * i) % 2 ^ 32 % f.m / 32) % f.b
          ∧ j = (hashFNV1a x + hashFNV1a x * i) % 2 ^ 32 % f.m % 32) := by
  have hf : Sound f := ⟨hm, hb, hlen⟩
  refine ⟨added f (hashFNV1a x), Add_eq hf x, ?_, ?_⟩
  · simp only [added, length_orProbes]
  · intro w j
    rw [bitAt_added hf, Bool.or_eq_true, hk, hitsProbe_four]

/-- Witness of C3 on the empty filter `New (64)` and the item `a`. -/
theorem Add_sets_exactly_probe_bits_witness :
    ∃ g, (New 64).Add [97] = .ok g ∧ g.bitset.length = (New 64).bitset.length ∧
      ∀ w j, (bitAt g.bitset w j = true ↔
        bitAt (New 64).bitset w j = true ∨
        ∃ i, i < 4 ∧
          w = ((hashFNV1a [97] + hashFNV1a [97] * i) % 2 ^ 32 % (New 64).m / 32) % (New 64).b
          ∧ j = (hashFNV1a [97] + hashFNV1a [97] * i) % 2 ^ 32 % (New 64).m % 32) :=
  Add_sets_exactly_probe_bits (New 64) [97] (by decide) (by decide) (by decide) (by decide)

/-- C5, counterexample: `New (31)` has `b = 0`, and both `Add` and `Test` panic on it with an
integer division by zero although `31` is a positive size. -/
theorem Add_Test_panic_at_31 :
    0 < 31 ∧ (New 31).Add [97] = .error .divideByZero
      ∧ (New 31).Test [97] = .error .divideByZero := by
  decide

/-- C5, amended: for every filter built by `New (size)` with `32 ≤ size` and any sequence of
`Add` calls, and every item, `Add` and `Test` return without a panic. -/
theorem Add_Test_return (size : Nat) (hsize : 32 ≤ size) (xs : List Item) (x : Item) :
    ∃ f, addAll (New size) xs = .ok f ∧ (∃ g, f.Add x = .ok g) ∧ ∃ r, f.Test x = .ok r := by
  obtain ⟨f, hf, hs, -⟩ := addAll_eq xs (New size) (sound_New size hsize)
  exact ⟨f, hf, ⟨_, Add_eq hs x⟩, ⟨_, Test_eq hs x⟩⟩

/-- Witness of the amended C5 on `New (32)`, the smallest size that works. -/
theorem Add_Test_return_witness :
    32 ≤ 32 ∧ ∃ f, addAll (New 32) [[98]] = .ok f ∧ (∃ g, f.Add [97] = .ok g)
      ∧ ∃ r, f.Test [97] = .ok r :=
  ⟨by decide, Add_Test_return 32 (by decide) [[98]] [97]⟩

/-- C6: monotonicity. On a filter with `32 ≤ m`, `b = m / 32` and `len (bitset) = b`,
`Add (x)` returns a filter in which every bit that was set is still set, and on which
`Test (y)` is `true` for every `y` for which it was `true` before. -/
theorem Add_monotone (f : BloomFilter) (x : Item) (hm : 32 ≤ f.m) (hb : f.b = f.m / 32)
    (hlen : f.bitset.length = f.b) :
    ∃ g, f.Add x = .ok g
      ∧ (∀ w j, bitAt f.bitset w j = true → bitAt g.bitset w j = true)
      ∧ ∀ y, f.Test y = .ok true → g.Test y = .ok true := by
  have hf : Sound f := ⟨hm, hb, hlen⟩
  refine ⟨added f (hashFNV1a x), Add_eq hf x, ?_, ?_⟩
  · intro w j hbit
    exact bitAt_added_of_bitAt hf _ w j hbit
  · intro y hy
    exact Test_mono hf (hf.added _) rfl rfl rfl
      (fun w j hbit => bitAt_added_of_bitAt hf _ w j hbit) y hy

/-- Witness of C6 on the filter that `New (64)` is after `Add` of the item `a`, and the
item `b`: bit 4 of word 0 is set and `Test` of `a` is `true` before `Add` of `b`. -/
theorem Add_monotone_witness :
    (New 64).Add [97] = .ok { New 64 with bitset := [16777232, 69632], n := 1 }
      ∧ bitAt ({ New 64 with bitset := [16777232, 69632], n := 1 } : BloomFilter).bitset 0 4
          = true
      ∧ ({ New 64 with bitset := [16777232, 69632], n := 1 } : BloomFilter).Test [97] = .ok true
      ∧ ∃ g, ({ New 64 with bitset := [16777232, 69632], n := 1 } : BloomFilter).Add [98]
            = .ok g
        ∧ (∀ w j,
            bitAt ({ New 64 with bitset := [16777232, 69632], n := 1 } : BloomFilter).bitset w j
              = true → bitAt g.bitset w j = true)
        ∧ ∀ y, ({ New 64 with bitset := [16777232, 69632], n := 1 } : BloomFilter).Test y
            = .ok true → g.Test y = .ok true :=
  ⟨by decide, by decide, by decide,
    Add_monotone { New 64 with bitset := [16777232, 69632], n := 1 } [98]
      (by decide) (by decide) (by decide)⟩

/-- C7: independence from insertion order. On a filter with `32 ≤ m`, `b = m / 32` and
`len (bitset) = b`, adding the items of two lists that are permutations of each other
returns filters with the same bitset and the same `n`, hence the same `Test` result for
every item. -/
theorem addAll_perm (f : BloomFilter) (xs ys : List Item) (hm : 32 ≤ f.m)
    (hb : f.b = f.m / 32) (hlen : f.bitset.length = f.b) (hperm : xs.Perm ys) :
    ∃ g1 g2, addAll f xs = .ok g1 ∧ addAll f ys = .ok g2
      ∧ g1.bitset = g2.bitset ∧ g1.n = g2.n ∧ ∀ y, g1.Test y = g2.Test y := by
  have hf : Sound f := ⟨hm, hb, hlen⟩
  obtain ⟨g1, h1, hs1, hm1, hb1, hk1, hn1, hbits1⟩ := addAll_eq xs f hf
  obtain ⟨g2, h2, hs2, hm2, hb2, hk2, hn2, hbits2⟩ := addAll_eq ys f hf
  have hbitset : g1.bitset = g2.bitset := by
    apply bits_ext
    · rw [hs1.hlen, hs2.hlen, hb1, hb2]
    · intro w j
      rw [hbits1, hbits2, any_perm _ xs ys hperm]
  refine ⟨g1, g2, h1, h2, hbitset, ?_, ?_⟩
  · rw [hn1, hn2, hperm.length_eq]
  · intro y
    exact Test_congr hs2 hs1 (by rw [hm1, hm2]) (by rw [hb1, hb2]) (by rw [hk1, hk2]) hbitset y

/-- Witness of C7 on `New (64)`: the items `a`, `b` in both orders. -/
theorem addAll_perm_witness :
    ∃ g1 g2, addAll (New 64) [[97], [98]] = .ok g1 ∧ addAll (New 64) [[98], [97]] = .ok g2
      ∧ g1.bitset = g2.bitset ∧ g1.n = g2.n ∧ ∀ y, g1.Test y = g2.Test y :=
  addAll_perm (New 64) [[97], [98]] [[98], [97]] (by decide) (by decide) (by decide)
    (List.Perm.swap [98] [97] [])


/-- C8: duplicate insensitivity of membership, not of count. On a filter with `32 ≤ m`,
`b = m / 32`, `len (bitset) = b` and `k = 4`, the bitset after `Add (x); Add (x)` is the
bitset after one `Add (x)`, so every `Test` result is the same and `Test (x)` is `true` after
either, while `n` has been incremented twice: it is `f.n + 2` on `uint`, which is the number
`f.n + 2` whenever that fits in a `uint`. -/
theorem Add_twice (f : BloomFilter) (x : Item) (hm : 32 ≤ f.m) (hb : f.b = f.m / 32)
    (hlen : f.bitset.length = f.b) (hk : f.k = 4) :
    ∃ g1 g2, f.Add x = .ok g1 ∧ g1.Add x = .ok g2
      ∧ g2.bitset = g1.bitset
      ∧ (∀ y, g2.Test y = g1.Test y)
      ∧ g1.Test x = .ok true ∧ g2.Test x = .ok true
      ∧ g2.n = (f.n + 2) % uintModulus
      ∧ (f.n + 2 < uintModulus → g2.n = f.n + 2) := by
  have hf : Sound f := ⟨hm, hb, hlen⟩
  have hs1 : Sound (added f (hashFNV1a x)) := hf.added _
  have hs2 : Sound (added (added f (hashFNV1a x)) (hashFNV1a x)) := hs1.added _
  have hbitset : (added (added f (hashFNV1a x)) (hashFNV1a x)).bitset
      = (added f (hashFNV1a x)).bitset := by
    apply bits_ext
    · rw [hs2.hlen, hs1.hlen]; rfl
    · intro w j
      exact bitAt_added_added hf _ w j
  have htest : ∀ y, (added (added f (hashFNV1a x)) (hashFNV1a x)).Test y
      = (added f (hashFNV1a x)).Test y :=
    fun y => Test_congr hs1 hs2 rfl rfl rfl hbitset y
  have hx : (added f (hashFNV1a x)).Test x = .ok true := by
    rw [Test_eq hs1]
    congr 1
    rw [List.any_eq_true]
    refine ⟨0, ?_, bitAt_added_probe hf _ 0 (by rw [hk]; exact Nat.succ_pos 3)⟩
    rw [List.mem_range]
    show 0 < f.k
    rw [hk]
    exact Nat.succ_pos 3
  have hn : (added (added f (hashFNV1a x)) (hashFNV1a x)).n = (f.n + 2) % uintModulus := by
    show ((f.n + 1) % uintModulus + 1) % uintModulus = _
    rw [Nat.mod_add_mod]
  refine ⟨_, _, Add_eq hf x, Add_eq hs1 x, hbitset, htest, hx, ?_, hn, ?_⟩
  · rw [htest x]; exact hx
  · intro hfit
    rw [hn, Nat.mod_eq_of_lt hfit]

/-- Witness of C8 on `New (64)` and the item `a`. -/
theorem Add_twice_witness :
    ∃ g1 g2, (New 64).Add [97] = .ok g1 ∧ g1.Add [97] = .ok g2
      ∧ g2.bitset = g1.bitset
      ∧ (∀ y, g2.Test y = g1.Test y)
      ∧ g1.Test [97] = .ok true ∧ g2.Test [97] = .ok true
      ∧ g2.n = ((New 64).n + 2) % uintModulus
      ∧ ((New 64).n + 2 < uintModulus → g2.n = (New 64).n + 2) :=
  Add_twice (New 64) [97] (by decide) (by decide) (by decide) (by decide)

/-- C9: every `Add` that returns has incremented `n` by exactly one on `uint`, whichever
bits it set; and on `New (size)` with `32 ≤ size`, adding a list of `N` items with `N` below
the number of `uint` values returns a filter with `n = N`, duplicates counted. -/
theorem Add_counts (f g : BloomFilter) (x : Item) (hadd : f.Add x = .ok g) (size : Nat)
    (hsize : 32 ≤ size) (xs : List Item) (hN : xs.length < uintModulus) :
    g.n = (f.n + 1) % uintModulus
      ∧ ∃ g2, addAll (New size) xs = .ok g2 ∧ g2.n = xs.length := by
  refine ⟨Add_n f g x hadd, ?_⟩
  obtain ⟨g2, h2, -, -, -, -, hn, -⟩ := addAll_eq xs (New size) (sound_New size hsize)
  refine ⟨g2, h2, ?_⟩
  rw [hn, iterate_incr _ _ (by show 0 + xs.length < uintModulus; omega)]
  show 0 + xs.length = xs.length
  omega

/-- Witness of C9: one `Add` on `New (64)`, and the item `a` added twice to `New (1000)`. -/
theorem Add_counts_witness :
    (New 64).Add [97] = .ok { New 64 with bitset := [16777232, 69632], n := 1 }
      ∧ 32 ≤ 1000 ∧ [[97], [97]].length < uintModulus
      ∧ ({ New 64 with bitset := [16777232, 69632], n := 1 } : BloomFilter).n
          = ((New 64).n + 1) % uintModulus
      ∧ ∃ g2, addAll (New 1000) [[97], [97]] = .ok g2 ∧ g2.n = [[97], [97]].length :=
  ⟨by decide, by decide, by decide,
    Add_counts (New 64) _ [97] (by decide) 1000 (by decide) [[97], [97]] (by decide)⟩

/-- C10: `Add` changes only the bits and `n`. On a filter with `32 ≤ m`, `b = m / 32` and
`len (bitset) = b`, `Add (x)` returns a filter with the same `m`, `k`, `b` and the same
bitset length; so every filter reached from `New (size)`, `32 ≤ size`, by `Add` calls has
`m = size`, `len (bitset) = b = m / 32` and `k = 4`. -/
theorem Add_keeps_shape (f : BloomFilter) (x : Item) (hm : 32 ≤ f.m) (hb : f.b = f.m / 32)
    (hlen : f.bitset.length = f.b) (size : Nat) (hsize : 32 ≤ size) (xs : List Item) :
    (∃ g, f.Add x = .ok g ∧ g.m = f.m ∧ g.k = f.k ∧ g.b = f.b
        ∧ g.bitset.length = f.bitset.length)
      ∧ ∃ g, addAll (New size) xs = .ok g ∧ g.m = size ∧ g.bitset.length = g.b
        ∧ g.b = g.m / 32 ∧ g.k = 4 := by
  have hf : Sound f := ⟨hm, hb, hlen⟩
  constructor
  · refine ⟨added f (hashFNV1a x), Add_eq hf x, rfl, rfl, rfl, ?_⟩
    simp only [added, length_orProbes]
  · obtain ⟨g, hg, hs, hgm, -, hgk, -, -⟩ := addAll_eq xs (New size) (sound_New size hsize)
    exact ⟨g, hg, hgm, hs.hlen, hs.hb, hgk⟩

/-- Witness of C10 on `New (64)` and on `New (1000)` after two `Add` calls. -/
theorem Add_keeps_shape_witness :
    (∃ g, (New 64).Add [97] = .ok g ∧ g.m = (New 64).m ∧ g.k = (New 64).k ∧ g.b = (New 64).b
        ∧ g.bitset.length = (New 64).bitset.length)
      ∧ ∃ g, addAll (New 1000) [[97], [98]] = .ok g ∧ g.m = 1000 ∧ g.bitset.length = g.b
        ∧ g.b = g.m / 32 ∧ g.k = 4 :=
  Add_keeps_shape (New 64) [97] (by decide) (by decide) (by decide) 1000 (by decide)
    [[97], [98]]


/-! ## Lemmas for the later properties -/

theorem bitAt_replicate_zero (n w j : Nat) : bitAt (List.replicate n 0) w j = false := by
  unfold bitAt
  rw [List.getD_eq_getElem?_getD]
  by_cases hw : w < n
  · simp [List.getElem?_replicate, hw]
  · simp [List.getElem?_replicate, hw]

theorem physical_eq (m b h i : Nat) :
    physical b (indexOf m h h i) = (bucketOf m b h h i, offsetOf m h h i) := rfl

theorem Test_hash (f : BloomFilter) (x y : Item) (hxy : hashFNV1a x = hashFNV1a y) :
    f.Test y = f.Test x := by
  unfold BloomFilter.Test
  rw [hxy]


/-- After `Add (x)` on a filter of sound shape with at least one probe, `Test (x)` is `true`. -/
theorem Test_added_self (hf : Sound f) (hk : 0 < f.k) (x : Item) :
    (added f (hashFNV1a x)).Test x = .ok true := by
  rw [Test_eq (hf.added _)]
  congr 1
  rw [List.any_eq_true]
  exact ⟨0, List.mem_range.mpr hk, bitAt_added_probe hf _ 0 hk⟩

/-- An `Except` value that is `ok` of a boolean is `ok false` exactly when it is not `ok true`. -/
theorem ok_false_iff_not_ok_true (r : Except Panic Bool) (b : Bool) (h : r = .ok b) :
    r = .ok false ↔ ¬ r = .ok true := by
  subst h
  cases b
  · exact ⟨fun _ h => Bool.false_ne_true (Except.ok.inj h), fun _ => rfl⟩
  · exact ⟨fun h => absurd (Except.ok.inj h).symm Bool.false_ne_true, fun h => absurd rfl h⟩

/-- The answer of `Test` on the filter built from `New (size)` by adding `xs`. -/
theorem Test_addAll_New (size : Nat) (hsize : 32 ≤ size) (xs : List Item) (y : Item) :
    ∃ g, addAll (New size) xs = .ok g ∧
      (g.Test y = .ok true ↔ ∃ x, x ∈ xs ∧ ∃ i, i < 4 ∧ ∃ j, j < 4 ∧
        physical (size / 32) ((hashFNV1a y + hashFNV1a y * i) % 2 ^ 32 % size)
          = physical (size / 32) ((hashFNV1a x + hashFNV1a x * j) % 2 ^ 32 % size)) ∧
      ∃ r, g.Test y = .ok r := by
  obtain ⟨g, hg, hsg, hgm, hgb, hgk, -, hbits⟩ := addAll_eq xs (New size) (sound_New size hsize)
  have hgm2 : g.m = size := hgm
  have hgb2 : g.b = size / 32 := hgb
  have hgk2 : g.k = 4 := hgk
  refine ⟨g, hg, ?_, ⟨_, Test_eq hsg y⟩⟩
  rw [Test_eq hsg, hgk2, hgm2, hgb2]
  constructor
  · intro h
    obtain ⟨i, hi, hbit⟩ := (any_probe_four _ _ _ _).mp (Except.ok.inj h)
    rw [hbits] at hbit
    have hnew : ∀ w j, bitAt (New size).bitset w j = false :=
      fun w j => bitAt_replicate_zero _ w j
    rw [hnew, Bool.false_or, List.any_eq_true] at hbit
    obtain ⟨x, hx, hhit⟩ := hbit
    obtain ⟨j, hj, hw, ho⟩ := (hitsProbe_four _ _ _ _ _).mp hhit
    refine ⟨x, hx, i, hi, j, hj, ?_⟩
    unfold physical
    exact Prod.ext hw ho
  · rintro ⟨x, hx, i, hi, j, hj, hpos⟩
    congr 1
    rw [any_probe_four]
    refine ⟨i, hi, ?_⟩
    unfold physical at hpos
    have hw := congrArg Prod.fst hpos
    have ho := congrArg Prod.snd hpos
    simp only at hw ho
    rw [hbits, Bool.or_eq_true]
    right
    rw [List.any_eq_true]
    exact ⟨x, hx, (hitsProbe_four _ _ _ _ _).mpr ⟨j, hj, hw, ho⟩⟩


/-! ## Properties of membership answers and probe positions -/

/-- C14: hash collisions are reported as members. On a filter with `32 ≤ m`, `b = m / 32`,
`len (bitset) = b` and `k = 4`, for items `x`, `y` with the same `hashFNV1a`, `Add (x)` returns
a filter on which `Test (y)` is `true`; on every filter `Test (y)` is `Test (x)`. On
`New (1000)`, after adding "costarring", "declinate", "altarage" and "altarages", `Test` is
`true` for "liquid", "macallums", "zinke" and "zinkes". -/
theorem collisions_are_members (f : BloomFilter) (x y : Item) (hm : 32 ≤ f.m)
    (hb : f.b = f.m / 32) (hlen : f.bitset.length = f.b) (hk : f.k = 4)
    (hxy : hashFNV1a x = hashFNV1a y) :
    (∃ g, f.Add x = .ok g ∧ g.Test y = .ok true)
      ∧ (∀ g : BloomFilter, g.Test y = g.Test x)
      ∧ testAfter 1000 [costarring, declinate, altarage, altarages] liquid = .ok true
      ∧ testAfter 1000 [costarring, declinate, altarage, altarages] macallums = .ok true
      ∧ testAfter 1000 [costarring, declinate, altarage, altarages] zinke = .ok true
      ∧ testAfter 1000 [costarring, declinate, altarage, altarages] zinkes = .ok true := by
  have hf : Sound f := ⟨hm, hb, hlen⟩
  refine ⟨⟨added f (hashFNV1a x), Add_eq hf x, ?_⟩, fun g => Test_hash g x y hxy,
    by decide, by decide, by decide, by decide⟩
  rw [Test_hash _ x y hxy]
  exact Test_added_self hf (by rw [hk]; exact Nat.succ_pos 3) x

/-- Witness of C14 on `New (1000)` with the colliding strings "costarring" and "liquid". -/
theorem collisions_are_members_witness :
    hashFNV1a costarring = hashFNV1a liquid
      ∧ (∃ g, (New 1000).Add costarring = .ok g ∧ g.Test liquid = .ok true)
      ∧ (∀ g : BloomFilter, g.Test liquid = g.Test costarring)
      ∧ testAfter 1000 [costarring, declinate, altarage, altarages] liquid = .ok true
      ∧ testAfter 1000 [costarring, declinate, altarage, altarages] macallums = .ok true
      ∧ testAfter 1000 [costarring, declinate, altarage, altarages] zinke = .ok true
      ∧ testAfter 1000 [costarring, declinate, altarage, altarages] zinkes = .ok true :=
  ⟨by decide, collisions_are_members (New 1000) costarring liquid (by decide) (by decide)
    (by decide) (by decide) (by decide)⟩

/-- C15: the exact answer on a filter built from scratch. For `32 ≤ size`, the `Add` calls for
`xs` on `New (size)` return a filter on which `Test (y)` is `true` exactly when a probe position
(word, bit) of `y` is a probe position of some `x` of `xs`, and `false` exactly when none is.
On `New (1000)`: after "Bess", `Test ("Jane")` is `false`; after "abc", `Test ("wtf")` is
`false`; after the bytes `[0,0,0,100]`, `Test` of `[0,0,0,101]`, `[0,0,0,102]`, `[0,0,0,103]`
is `false`. -/
theorem Test_after_adds_iff (size : Nat) (hsize : 32 ≤ size) (xs : List Item) (y : Item) :
    (∃ g, addAll (New size) xs = .ok g ∧
      (g.Test y = .ok true ↔ ∃ x, x ∈ xs ∧ ∃ i, i < 4 ∧ ∃ j, j < 4 ∧
        physical (size / 32) ((hashFNV1a y + hashFNV1a y * i) % 2 ^ 32 % size)
          = physical (size / 32) ((hashFNV1a x + hashFNV1a x * j) % 2 ^ 32 % size)) ∧
      (g.Test y = .ok false ↔ ¬ ∃ x, x ∈ xs ∧ ∃ i, i < 4 ∧ ∃ j, j < 4 ∧
        physical (size / 32) ((hashFNV1a y + hashFNV1a y * i) % 2 ^ 32 % size)
          = physical (size / 32) ((hashFNV1a x + hashFNV1a x * j) % 2 ^ 32 % size)))
      ∧ testAfter 1000 [Bess] Jane = .ok false
      ∧ testAfter 1000 [abc] wtf = .ok false
      ∧ testAfter 1000 [bigEndian100] bigEndian101 = .ok false
      ∧ testAfter 1000 [bigEndian100] bigEndian102 = .ok false
      ∧ testAfter 1000 [bigEndian100] bigEndian103 = .ok false := by
  obtain ⟨g, hg, htrue, r, hr⟩ := Test_addAll_New size hsize xs y
  refine ⟨⟨g, hg, htrue, ?_⟩, by decide, by decide, by decide, by decide, by decide⟩
  rw [ok_false_iff_not_ok_true _ r hr, htrue]

/-- Witness of C15 on `New (1000)` after "Bess", for the item "Jane". -/
theorem Test_after_adds_iff_witness :
    32 ≤ 1000 ∧
    (∃ g, addAll (New 1000) [Bess] = .ok g ∧
      (g.Test Jane = .ok true ↔ ∃ x, x ∈ [Bess] ∧ ∃ i, i < 4 ∧ ∃ j, j < 4 ∧
        physical (1000 / 32) ((hashFNV1a Jane + hashFNV1a Jane * i) % 2 ^ 32 % 1000)
          = physical (1000 / 32) ((hashFNV1a x + hashFNV1a x * j) % 2 ^ 32 % 1000)) ∧
      (g.Test Jane = .ok false ↔ ¬ ∃ x, x ∈ [Bess] ∧ ∃ i, i < 4 ∧ ∃ j, j < 4 ∧
        physical (1000 / 32) ((hashFNV1a Jane + hashFNV1a Jane * i) % 2 ^ 32 % 1000)
          = physical (1000 / 32) ((hashFNV1a x + hashFNV1a x * j) % 2 ^ 32 % 1000)))
      ∧ testAfter 1000 [Bess] Jane = .ok false
      ∧ testAfter 1000 [abc] wtf = .ok false
      ∧ testAfter 1000 [bigEndian100] bigEndian101 = .ok false
      ∧ testAfter 1000 [bigEndian100] bigEndian102 = .ok false
      ∧ testAfter 1000 [bigEndian100] bigEndian103 = .ok false :=
  ⟨by decide, Test_after_adds_iff 1000 (by decide) [Bess] Jane⟩

/-- C16: probe positions are in range. On a filter with `32 ≤ m`, `b = m / 32` and
`len (bitset) = b`, for every item and every `i < 4` the index expression returns
`index = (h + h * i) % 2 ^ 32 % m` with `index < m`, the bucket expression returns
`bucket = (index / 32) % b` with `bucket < b = len (bitset)`, the bit offset `index % 32` is
below 32 and the word `bitset[bucket]` exists; `Add` and `Test` return without a panic. -/
theorem probes_in_range (f : BloomFilter) (x : Item) (i : Nat) (hm : 32 ≤ f.m)
    (hb : f.b = f.m / 32) (hlen : f.bitset.length = f.b) (hi : i < 4) :
    (∃ index bucket,
        probeIndex f (hashFNV1a x) (hashFNV1a x) i = .ok index
        ∧ index = (hashFNV1a x + hashFNV1a x * i) % 2 ^ 32 % f.m
        ∧ index < f.m
        ∧ probeBucket f index = .ok bucket
        ∧ bucket = (index / 32) % f.b
        ∧ bucket < f.b ∧ bucket < f.bitset.length
        ∧ index % 32 < 32
        ∧ ∃ w, f.bitset[bucket]? = some w)
      ∧ (∃ g, f.Add x = .ok g) ∧ ∃ r, f.Test x = .ok r := by
  have hf : Sound f := ⟨hm, hb, hlen⟩
  have hm0 : 0 < f.m := Nat.pos_of_ne_zero hf.m_ne
  have hlt : bucketOf f.m f.b (hashFNV1a x) (hashFNV1a x) i < f.b := bucketOf_lt _ _ _ _ _ hf.b_ne
  refine ⟨⟨indexOf f.m (hashFNV1a x) (hashFNV1a x) i,
    bucketOf f.m f.b (hashFNV1a x) (hashFNV1a x) i,
    probeIndex_eq f _ _ i hf.m_ne, indexOf_small _ _ _ _ hi, Nat.mod_lt _ hm0,
    probeBucket_eq f _ _ i hf.b_ne, rfl, hlt, by rw [hlen]; exact hlt,
    Nat.mod_lt _ (by decide), ⟨_, getElem?_bucketOf f _ _ i hf.b_ne hlen⟩⟩,
    ⟨_, Add_eq hf x⟩, ⟨_, Test_eq hf x⟩⟩

/-- Witness of C16 on `New (1000)`, the item "Bess" and the last probe `i = 3`. -/
theorem probes_in_range_witness :
    (∃ index bucket,
        probeIndex (New 1000) (hashFNV1a Bess) (hashFNV1a Bess) 3 = .ok index
        ∧ index = (hashFNV1a Bess + hashFNV1a Bess * 3) % 2 ^ 32 % (New 1000).m
        ∧ index < (New 1000).m
        ∧ probeBucket (New 1000) index = .ok bucket
        ∧ bucket = (index / 32) % (New 1000).b
        ∧ bucket < (New 1000).b ∧ bucket < (New 1000).bitset.length
        ∧ index % 32 < 32
        ∧ ∃ w, (New 1000).bitset[bucket]? = some w)
      ∧ (∃ g, (New 1000).Add Bess = .ok g) ∧ ∃ r, (New 1000).Test Bess = .ok r :=
  probes_in_range (New 1000) Bess 3 (by decide) (by decide) (by decide) (by decide)

/-- C18: an empty filter has no false positives. For `32 ≤ size` and every item `y`,
`Test (y)` on `New (size)` returns `false`. -/
theorem Test_New_false (size : Nat) (hsize : 32 ≤ size) (y : Item) :
    (New size).Test y = .ok false := by
  rw [Test_eq (sound_New size hsize)]
  congr 1
  rw [← Bool.not_eq_true, List.any_eq_true]
  rintro ⟨i, -, hbit⟩
  rw [show (New size).bitset = List.replicate (size / 32) 0 from rfl,
    bitAt_replicate_zero] at hbit
  exact Bool.false_ne_true hbit

/-- Witness of C18 on `New (1000)` and the item "Jane". -/
theorem Test_New_false_witness : 32 ≤ 1000 ∧ (New 1000).Test Jane = .ok false :=
  ⟨by decide, Test_New_false 1000 (by decide) Jane⟩


/-! ## The single hash and the layout of the bits -/

/-- With both hashes equal to `h`, the wrapped sum `h + h * i` is `(i + 1) * h` wrapped. -/
theorem indexOf_same_hash (m h i : Nat) (hi : i < 4) : indexOf m h h i = specIndex h m i := by
  rw [indexOf_small _ _ _ _ hi, specIndex]
  congr 2
  ring

theorem map_addLoop (f : BloomFilter) (x : Item) :
    f.Add x = (addLoop (hashFNV1a x) (hashFNV1a x) f (List.range f.k)).map
      (fun g => { g with n := (g.n + 1) % uintModulus }) := by
  unfold BloomFilter.Add
  simp only
  cases addLoop (hashFNV1a x) (hashFNV1a x) f (List.range f.k) <;> rfl

/-- C17: the two base hashes are equal. `Add` and `Test` run their loops with
`hash1 = hash2 = hashFNV1a (item)`, so on every filter with `m` not zero the index expression
for `i < 4` returns `(((i + 1) * h) mod 2^32) mod m` with `h = hashFNV1a (item)`, the product
wrapping on `uint32` before the reduction modulo `m`; on a filter with `32 ≤ m`, `b = m / 32`,
`len (bitset) = b` and `k = 4`, `Test` reads and `Add` sets the bits at these four indices. -/
theorem probe_index_single_hash (f : BloomFilter) (x : Item) (hm : 32 ≤ f.m)
    (hb : f.b = f.m / 32) (hlen : f.bitset.length = f.b) (hk : f.k = 4) :
    (∀ g : BloomFilter, g.Add x
        = (addLoop (hashFNV1a x) (hashFNV1a x) g (List.range g.k)).map
            (fun r => { r with n := (r.n + 1) % uintModulus }))
      ∧ (∀ g : BloomFilter, g.Test x = testLoop g (hashFNV1a x) (hashFNV1a x) (List.range g.k))
      ∧ (∀ g : BloomFilter, ∀ i, i < 4 → 0 < g.m →
          probeIndex g (hashFNV1a x) (hashFNV1a x) i = .ok (specIndex (hashFNV1a x) g.m i))
      ∧ (f.Test x = .ok true ↔ ∃ i, i < 4 ∧
          bitAt f.bitset ((specIndex (hashFNV1a x) f.m i / 32) % f.b)
            (specIndex (hashFNV1a x) f.m i % 32) = true)
      ∧ ∃ g, f.Add x = .ok g ∧ ∀ w j, (bitAt g.bitset w j = true ↔
          bitAt f.bitset w j = true ∨
          ∃ i, i < 4 ∧ (w, j) = physical f.b (specIndex (hashFNV1a x) f.m i)) := by
  have hf : Sound f := ⟨hm, hb, hlen⟩
  refine ⟨fun g => map_addLoop g x, fun g => rfl, ?_, ?_, added f (hashFNV1a x), Add_eq hf x, ?_⟩
  · intro g i hi hg
    rw [probeIndex_eq g _ _ i (Nat.pos_iff_ne_zero.mp hg), indexOf_same_hash _ _ _ hi]
  · rw [Test_eq hf, hk]
    constructor
    · intro h
      obtain ⟨i, hi, hbit⟩ := List.any_eq_true.mp (Except.ok.inj h)
      rw [List.mem_range] at hi
      rw [bucketOf, offsetOf, indexOf_same_hash _ _ _ hi] at hbit
      exact ⟨i, hi, hbit⟩
    · intro h
      congr 1
      obtain ⟨i, hi, hbit⟩ := h
      rw [List.any_eq_true]
      refine ⟨i, List.mem_range.mpr hi, ?_⟩
      rw [bucketOf, offsetOf, indexOf_same_hash _ _ _ hi]
      exact hbit
  · intro w j
    rw [bitAt_added hf, Bool.or_eq_true, hk]
    simp only [hitsProbe, List.any_eq_true, List.mem_range, decide_eq_true_eq, physical,
      Prod.mk.injEq]
    constructor
    · rintro (h | ⟨i, hi, hw, hj⟩)
      · exact Or.inl h
      · rw [bucketOf, indexOf_same_hash _ _ _ hi] at hw
        rw [offsetOf, indexOf_same_hash _ _ _ hi] at hj
        exact Or.inr ⟨i, hi, hw, hj⟩
    · rintro (h | ⟨i, hi, hw, hj⟩)
      · exact Or.inl h
      · refine Or.inr ⟨i, hi, ?_, ?_⟩
        · rw [bucketOf, indexOf_same_hash _ _ _ hi]; exact hw
        · rw [offsetOf, indexOf_same_hash _ _ _ hi]; exact hj

/-- Witness of C17 on `New (1000)` and the item "Bess". -/
theorem probe_index_single_hash_witness :
    (∀ g : BloomFilter, g.Add Bess
        = (addLoop (hashFNV1a Bess) (hashFNV1a Bess) g (List.range g.k)).map
            (fun r => { r with n := (r.n + 1) % uintModulus }))
      ∧ (∀ g : BloomFilter,
          g.Test Bess = testLoop g (hashFNV1a Bess) (hashFNV1a Bess) (List.range g.k))
      ∧ (∀ g : BloomFilter, ∀ i, i < 4 → 0 < g.m →
          probeIndex g (hashFNV1a Bess) (hashFNV1a Bess) i
            = .ok (specIndex (hashFNV1a Bess) g.m i))
      ∧ ((New 1000).Test Bess = .ok true ↔ ∃ i, i < 4 ∧
          bitAt (New 1000).bitset ((specIndex (hashFNV1a Bess) (New 1000).m i / 32) % (New 1000).b)
            (specIndex (hashFNV1a Bess) (New 1000).m i % 32) = true)
      ∧ ∃ g, (New 1000).Add Bess = .ok g ∧ ∀ w j, (bitAt g.bitset w j = true ↔
          bitAt (New 1000).bitset w j = true ∨
          ∃ i, i < 4 ∧ (w, j) = physical (New 1000).b (specIndex (hashFNV1a Bess) (New 1000).m i)) :=
  probe_index_single_hash (New 1000) Bess (by decide) (by decide) (by decide) (by decide)

/-- C19: for `32 ≤ m` and `b = m / 32`, the map from a logical index below `m` to its word and
bit is injective exactly when `m` is a multiple of 32. When it is not, every index from
`32 * b` on lies in word 0, at the bit of the index `32 * b` lower; for `m = 1000` the indices
`992 .. 999` address the bits of the indices `0 .. 7`. -/
theorem physical_injective_iff (m : Nat) (hm : 32 ≤ m) :
    ((∀ i j, i < m → j < m → physical (m / 32) i = physical (m / 32) j → i = j) ↔ m % 32 = 0)
      ∧ (∀ i, 32 * (m / 32) ≤ i → i < m →
          physical (m / 32) i = (0, i % 32)
          ∧ physical (m / 32) i = physical (m / 32) (i - 32 * (m / 32))
          ∧ i - 32 * (m / 32) < i)
      ∧ ∀ t, t < 8 → physical (1000 / 32) (992 + t) = physical (1000 / 32) t := by
  have hb : 0 < m / 32 := by omega
  refine ⟨⟨?_, ?_⟩, ?_, by decide⟩
  · intro hinj
    by_contra hmod
    have h0 := hinj (32 * (m / 32)) 0 (by omega) (by omega) (by
      unfold physical
      rw [Nat.mul_div_cancel_left _ (by decide : 0 < 32), Nat.mod_self, Nat.mul_mod_right]
      rfl)
    omega
  · intro hmod i j hi hj hpos
    unfold physical at hpos
    have hw := congrArg Prod.fst hpos
    have ho := congrArg Prod.snd hpos
    simp only at hw ho
    rw [Nat.mod_eq_of_lt (by omega), Nat.mod_eq_of_lt (by omega)] at hw
    omega
  · intro i hlo hhi
    have hdiv : i / 32 = m / 32 := by omega
    have hsub : (i - 32 * (m / 32)) / 32 = 0 := by omega
    have hoff : (i - 32 * (m / 32)) % 32 = i % 32 := by omega
    refine ⟨?_, ?_, by omega⟩
    · unfold physical
      rw [hdiv, Nat.mod_self]
    · unfold physical
      rw [hdiv, Nat.mod_self, hsub, hoff, Nat.zero_mod]

/-- Witness of C19 at `m = 1000`, which is not a multiple of 32. -/
theorem physical_injective_iff_witness :
    32 ≤ 1000 ∧
    ((∀ i j, i < 1000 → j < 1000 → physical (1000 / 32) i = physical (1000 / 32) j → i = j)
        ↔ 1000 % 32 = 0)
      ∧ (∀ i, 32 * (1000 / 32) ≤ i → i < 1000 →
          physical (1000 / 32) i = (0, i % 32)
          ∧ physical (1000 / 32) i = physical (1000 / 32) (i - 32 * (1000 / 32))
          ∧ i - 32 * (1000 / 32) < i)
      ∧ ∀ t, t < 8 → physical (1000 / 32) (992 + t) = physical (1000 / 32) t :=
  ⟨by decide, physical_injective_iff 1000 (by decide)⟩


/-! ## Lemmas on the counter and on the exponential -/

/-- Counting `k` calls of `f.n++` from a `uint` value `n`. -/
theorem iterate_incr_mod (k n : Nat) (h : n < uintModulus) :
    Nat.iterate (fun n => (n + 1) % uintModulus) k n = (n + k) % uintModulus := by
  induction k generalizing n with
  | zero => exact (Nat.mod_eq_of_lt h).symm
  | succ k ih =>
    rw [Function.iterate_succ_apply,
      ih ((n + 1) % uintModulus) (Nat.mod_lt _ (by unfold uintModulus; exact Nat.two_pow_pos 64)),
      Nat.mod_add_mod]
    congr 1
    omega

/-- The filter after the items `xs` have been added to a filter of sound shape with `n` in
`uint`: the counter has advanced by the number of items, on `uint`. -/
theorem addAll_counter (xs : List Item) (f : BloomFilter) (hf : Sound f)
    (hn : f.n < uintModulus) :
    ∃ g, addAll f xs = .ok g ∧ Sound g ∧ g.m = f.m ∧ g.k = f.k
      ∧ g.n = (f.n + xs.length) % uintModulus := by
  obtain ⟨g, hg, hs, hgm, -, hgk, hgn, -⟩ := addAll_eq xs f hf
  exact ⟨g, hg, hs, hgm, hgk, by rw [hgn, iterate_incr_mod _ _ hn]⟩

/-- The estimate over the reals on a filter with `k = 4` and `m = 1000`. -/
theorem fillRatio_real (g : BloomFilter) (N : Nat) (hn : g.n = N) (hk : g.k = 4)
    (hm : g.m = 1000) :
    g.EstimatedFillRatio (Nat.cast : Nat → ℝ) Real.exp = 1 - Real.exp (-(4 * (N : ℝ)) / 1000) := by
  unfold BloomFilter.EstimatedFillRatio
  rw [hn, hk, hm]
  congr 2
  push_cast
  ring

theorem exp_four_mul (x a b : ℝ) (ha : 0 ≤ a) (h1 : a ≤ Real.exp x) (h2 : Real.exp x ≤ b) :
    a ^ 4 ≤ Real.exp (4 * x) ∧ Real.exp (4 * x) ≤ b ^ 4 := by
  have h4 : Real.exp (4 * x) = Real.exp x ^ 4 := by
    have := Real.exp_nat_mul x 4
    simpa using this
  rw [h4]
  exact ⟨pow_le_pow_left₀ ha h1 4, pow_le_pow_left₀ (le_trans ha h1) h2 4⟩

theorem exp_neg_2_125 :
    (984127 : ℝ) / 1000000 ≤ Real.exp (-(2 / 125)) ∧ Real.exp (-(2 / 125)) ≤ 984128 / 1000000 := by
  have h := Real.exp_bound (x := -(2 / 125 : ℝ)) (by rw [abs_le]; constructor <;> norm_num)
    (n := 4) (by norm_num)
  simp only [Finset.sum_range_succ, Finset.sum_range_zero, Nat.factorial] at h
  rw [abs_le, abs_neg, abs_of_pos (by norm_num : (0 : ℝ) < 2 / 125)] at h
  norm_num at h
  constructor <;> linarith [h.1, h.2]

theorem exp_neg_113_125 :
    (40494662 : ℝ) / 100000000 ≤ Real.exp (-(113 / 125))
      ∧ Real.exp (-(113 / 125)) ≤ 40494664 / 100000000 := by
  have h := Real.exp_bound (x := -(113 / 125 : ℝ)) (by rw [abs_le]; constructor <;> norm_num)
    (n := 14) (by norm_num)
  simp only [Finset.sum_range_succ, Finset.sum_range_zero, Nat.factorial] at h
  rw [abs_le, abs_neg, abs_of_pos (by norm_num : (0 : ℝ) < 113 / 125)] at h
  norm_num at h
  constructor <;> linarith [h.1, h.2]

theorem exp_neg_one :
    (3678794 : ℝ) / 10000000 ≤ Real.exp (-1) ∧ Real.exp (-1) ≤ 3678795 / 10000000 := by
  have h := Real.exp_bound (x := -(1 : ℝ)) (by rw [abs_le]; constructor <;> norm_num)
    (n := 12) (by norm_num)
  simp only [Finset.sum_range_succ, Finset.sum_range_zero, Nat.factorial] at h
  rw [abs_le, abs_neg, abs_one] at h
  norm_num at h
  constructor <;> linarith [h.1, h.2]

/-- The value `1 - exp (-(4 * 4) / 1000)` of the estimate after 4 calls of `Add`. -/
theorem fill_value_4 :
    (0.015872 : ℝ) ≤ 1 - Real.exp (-(4 * ((4 : ℕ) : ℝ)) / 1000)
      ∧ 1 - Real.exp (-(4 * ((4 : ℕ) : ℝ)) / 1000) ≤ 0.015873 := by
  have harg : -(4 * ((4 : ℕ) : ℝ)) / 1000 = -(2 / 125) := by push_cast; norm_num
  rw [harg]
  have h := exp_neg_2_125
  constructor <;> norm_num <;> linarith [h.1, h.2]

/-- The value `1 - exp (-(4 * 904) / 1000)` of the estimate after 904 calls of `Add`. -/
theorem fill_value_904 :
    (0.9731099 : ℝ) ≤ 1 - Real.exp (-(4 * ((904 : ℕ) : ℝ)) / 1000)
      ∧ 1 - Real.exp (-(4 * ((904 : ℕ) : ℝ)) / 1000) ≤ 0.9731101 := by
  have harg : -(4 * ((904 : ℕ) : ℝ)) / 1000 = 4 * -(113 / 125) := by push_cast; norm_num
  rw [harg]
  have h := exp_four_mul _ _ _ (by norm_num) exp_neg_113_125.1 exp_neg_113_125.2
  constructor <;> norm_num <;> norm_num at h <;> linarith [h.1, h.2]

/-- The value `1 - exp (-(4 * 1000) / 1000) = 1 - exp (-4)` after 1000 calls of `Add`. -/
theorem fill_value_1000 :
    1 - Real.exp (-(4 * ((1000 : ℕ) : ℝ)) / 1000) = 1 - Real.exp (-4)
      ∧ (0.981684 : ℝ) ≤ 1 - Real.exp (-(4 * ((1000 : ℕ) : ℝ)) / 1000)
      ∧ 1 - Real.exp (-(4 * ((1000 : ℕ) : ℝ)) / 1000) ≤ 0.981685 := by
  have harg : -(4 * ((1000 : ℕ) : ℝ)) / 1000 = 4 * -1 := by push_cast; norm_num
  have harg2 : (4 : ℝ) * -1 = -4 := by norm_num
  rw [harg]
  have h := exp_four_mul _ _ _ (by norm_num) exp_neg_one.1 exp_neg_one.2
  refine ⟨by rw [harg2], ?_, ?_⟩ <;> norm_num <;> norm_num at h <;> linarith [h.1, h.2]


/-- The filter after the items `xs` have been added, when the counter stays within `uint`. -/
theorem addAll_counter_small (xs : List Item) (f : BloomFilter) (hf : Sound f)
    (hn : f.n + xs.length < uintModulus) :
    ∃ g, addAll f xs = .ok g ∧ Sound g ∧ g.m = f.m ∧ g.k = f.k ∧ g.n = f.n + xs.length := by
  obtain ⟨g, hg, hs, hgm, -, hgk, hgn, -⟩ := addAll_eq xs f hf
  exact ⟨g, hg, hs, hgm, hgk, by rw [hgn, iterate_incr _ _ hn]⟩

/-! ## Properties of the estimated fill ratio

`EstimatedFillRatio` is embedded over any carrier of the `float64` values. The properties
below read it over the real numbers, with `float64(_)` the inclusion of the natural numbers and
`math.Exp` the real exponential; the rounding of `float64` is outside the embedding. -/

/-- C11: `EstimatedFillRatio` reads only `n`, `k` and `m`. Two filters with equal `n`, `k` and
`m` return the same value whatever their bitsets and whatever the carrier of `float64`; read
over the reals the value is `1 - exp (-(n * k) / m)`; after the `N` items of a list have been
added to `New (1000)` it is `1 - exp (-(4 * n) / 1000)` with `n` the counter `N` on `uint`,
which is `1 - exp (-(4 * N) / 1000)` for every `N` that fits in a `uint`. -/
theorem fill_ratio_reads_counters {F : Type} [One F] [Neg F] [Mul F] [Div F] [Sub F]
    (ofUint : Nat → F) (exp : F → F) (f g : BloomFilter) (hn : f.n = g.n) (hk : f.k = g.k)
    (hm : f.m = g.m) (xs : List Item) :
    f.EstimatedFillRatio ofUint exp = g.EstimatedFillRatio ofUint exp
      ∧ f.EstimatedFillRatio (Nat.cast : Nat → ℝ) Real.exp
          = 1 - Real.exp (-((f.n : ℝ) * (f.k : ℝ)) / (f.m : ℝ))
      ∧ ∃ r, addAll (New 1000) xs = .ok r
          ∧ r.EstimatedFillRatio (Nat.cast : Nat → ℝ) Real.exp
              = 1 - Real.exp (-(4 * ((xs.length % uintModulus : ℕ) : ℝ)) / 1000)
          ∧ (xs.length < uintModulus →
              r.EstimatedFillRatio (Nat.cast : Nat → ℝ) Real.exp
                = 1 - Real.exp (-(4 * (xs.length : ℝ)) / 1000)) := by
  refine ⟨?_, ?_, ?_⟩
  · unfold BloomFilter.EstimatedFillRatio
    rw [hn, hk, hm]
  · unfold BloomFilter.EstimatedFillRatio
    rw [neg_mul]
  · obtain ⟨r, hr, -, hrm, hrk, hrn⟩ := addAll_counter xs (New 1000)
      (sound_New 1000 (by decide)) (by decide)
    have hrn2 : r.n = xs.length % uintModulus := by
      rw [hrn]
      show (0 + xs.length) % uintModulus = _
      rw [Nat.zero_add]
    refine ⟨r, hr, fillRatio_real r _ hrn2 hrk hrm, ?_⟩
    intro hN
    rw [fillRatio_real r _ hrn2 hrk hrm, Nat.mod_eq_of_lt hN]

/-- Witness of C11: two filters of 64 bits with different bitsets, and two items added to
`New (1000)`. -/
theorem fill_ratio_reads_counters_witness :
    (New 64).EstimatedFillRatio (Nat.cast : Nat → ℝ) Real.exp
        = ({ New 64 with bitset := [1, 2] } : BloomFilter).EstimatedFillRatio
            (Nat.cast : Nat → ℝ) Real.exp
      ∧ (New 64).EstimatedFillRatio (Nat.cast : Nat → ℝ) Real.exp
          = 1 - Real.exp (-(((New 64).n : ℝ) * ((New 64).k : ℝ)) / ((New 64).m : ℝ))
      ∧ ∃ r, addAll (New 1000) [Bess, Jane] = .ok r
          ∧ r.EstimatedFillRatio (Nat.cast : Nat → ℝ) Real.exp
              = 1 - Real.exp (-(4 * (([Bess, Jane].length % uintModulus : ℕ) : ℝ)) / 1000)
          ∧ ([Bess, Jane].length < uintModulus →
              r.EstimatedFillRatio (Nat.cast : Nat → ℝ) Real.exp
                = 1 - Real.exp (-(4 * (([Bess, Jane].length : ℕ) : ℝ)) / 1000)) :=
  fill_ratio_reads_counters (Nat.cast : Nat → ℝ) Real.exp (New 64)
    { New 64 with bitset := [1, 2] } rfl rfl rfl [Bess, Jane]

/-- C12: on `New (1000)`, whatever the items, after 4 calls of `Add` the estimate (over the
reals) lies within `0.015873 ± 0.000005`, and after 900 further calls (904 in all) within
`0.973110 ± 0.000005`; both bounds also hold for every value within `0.000001` of the
estimate. -/
theorem fill_ratio_test_values (xs ys : List Item) (hxs : xs.length = 4)
    (hys : ys.length = 900) :
    ∃ f g, addAll (New 1000) xs = .ok f ∧ addAll f ys = .ok g ∧ f.n = 4 ∧ g.n = 904
      ∧ (0.015873 - 0.000005 ≤ f.EstimatedFillRatio (Nat.cast : Nat → ℝ) Real.exp
          ∧ f.EstimatedFillRatio (Nat.cast : Nat → ℝ) Real.exp ≤ 0.015873 + 0.000005)
      ∧ (0.973110 - 0.000005 ≤ g.EstimatedFillRatio (Nat.cast : Nat → ℝ) Real.exp
          ∧ g.EstimatedFillRatio (Nat.cast : Nat → ℝ) Real.exp ≤ 0.973110 + 0.000005)
      ∧ (∀ v : ℝ, |v - f.EstimatedFillRatio (Nat.cast : Nat → ℝ) Real.exp| ≤ 0.000001 →
          0.015873 - 0.000005 ≤ v ∧ v ≤ 0.015873 + 0.000005)
      ∧ (∀ v : ℝ, |v - g.EstimatedFillRatio (Nat.cast : Nat → ℝ) Real.exp| ≤ 0.000001 →
          0.973110 - 0.000005 ≤ v ∧ v ≤ 0.973110 + 0.000005) := by
  obtain ⟨f, hf, hsf, hfm, hfk, hfn⟩ := addAll_counter_small xs (New 1000)
    (sound_New 1000 (by decide)) (by rw [hxs]; decide)
  have hfn4 : f.n = 4 := by rw [hfn, hxs]; rfl
  obtain ⟨g, hg, -, hgm, hgk, hgn⟩ := addAll_counter_small ys f hsf
    (by rw [hfn4, hys]; decide)
  have hgn904 : g.n = 904 := by rw [hgn, hfn4, hys]
  have hfv := fillRatio_real f 4 hfn4 hfk hfm
  have hgv := fillRatio_real g 904 hgn904 (hgk.trans hfk) (hgm.trans hfm)
  have h4 := fill_value_4
  have h904 := fill_value_904
  rw [← hfv] at h4
  rw [← hgv] at h904
  refine ⟨f, g, hf, hg, hfn4, hgn904, ⟨?_, ?_⟩, ⟨?_, ?_⟩, ?_, ?_⟩
  · linarith [h4.1]
  · linarith [h4.2]
  · linarith [h904.1]
  · linarith [h904.2]
  · intro v hv
    rw [abs_le] at hv
    constructor <;> linarith [h4.1, h4.2, hv.1, hv.2]
  · intro v hv
    rw [abs_le] at hv
    constructor <;> linarith [h904.1, h904.2, hv.1, hv.2]


/-- Witness of C12 on the items of `TestEstimatedFillRatio`: `string(i)` for `i` in `0 .. 3`,
then for `i` in `100 .. 999`. -/
theorem fill_ratio_test_values_witness :
    ∃ f g, addAll (New 1000) ((List.range 4).map runeString) = .ok f
      ∧ addAll f ((List.range' 100 900).map runeString) = .ok g ∧ f.n = 4 ∧ g.n = 904
      ∧ (0.015873 - 0.000005 ≤ f.EstimatedFillRatio (Nat.cast : Nat → ℝ) Real.exp
          ∧ f.EstimatedFillRatio (Nat.cast : Nat → ℝ) Real.exp ≤ 0.015873 + 0.000005)
      ∧ (0.973110 - 0.000005 ≤ g.EstimatedFillRatio (Nat.cast : Nat → ℝ) Real.exp
          ∧ g.EstimatedFillRatio (Nat.cast : Nat → ℝ) Real.exp ≤ 0.973110 + 0.000005)
      ∧ (∀ v : ℝ, |v - f.EstimatedFillRatio (Nat.cast : Nat → ℝ) Real.exp| ≤ 0.000001 →
          0.015873 - 0.000005 ≤ v ∧ v ≤ 0.015873 + 0.000005)
      ∧ (∀ v : ℝ, |v - g.EstimatedFillRatio (Nat.cast : Nat → ℝ) Real.exp| ≤ 0.000001 →
          0.973110 - 0.000005 ≤ v ∧ v ≤ 0.973110 + 0.000005) :=
  fill_ratio_test_values ((List.range 4).map runeString) ((List.range' 100 900).map runeString)
    (by simp) (by simp)

/-- C13, counterexample: on `New (1000)`, after the 1000 items `string(i)`, `i` in `0 .. 999`,
have been added (the 4 items `0 .. 3` and the 996 items `4 .. 999`), `n` is 1000 and the
estimate over the reals is above `0.973110 + 0.000005`. -/
theorem fill_ratio_after_1000_above :
    ∃ g, addAll (New 1000) ((List.range 4).map runeString ++ (List.range' 4 996).map runeString)
        = .ok g
      ∧ g.n = 1000
      ∧ 0.973110 + 0.000005 < g.EstimatedFillRatio (Nat.cast : Nat → ℝ) Real.exp := by
  obtain ⟨g, hg, -, hgm, hgk, hgn⟩ := addAll_counter_small
    ((List.range 4).map runeString ++ (List.range' 4 996).map runeString) (New 1000)
    (sound_New 1000 (by decide)) (by simp [New, uintModulus])
  have hgn2 : g.n = 1000 := by rw [hgn]; simp [New]
  refine ⟨g, hg, hgn2, ?_⟩
  rw [fillRatio_real g 1000 hgn2 hgk hgm]
  have h := fill_value_1000.2.1
  linarith [h]

/-- C13, amended: on `New (1000)`, whatever the items, after 4 calls of `Add` and the 900
further calls of the test of the source (904 in all) the estimate over the reals lies within
`0.973110 ± 0.000005`; after 4 calls and 996 further calls (1000 in all) it is `1 - exp (-4)`,
which lies within `0.981684 ± 0.000005`. -/
theorem fill_ratio_after_904_and_1000 (xs ys zs : List Item) (hxs : xs.length = 4)
    (hys : ys.length = 900) (hzs : zs.length = 996) :
    (∃ g, addAll (New 1000) (xs ++ ys) = .ok g ∧ g.n = 904
        ∧ 0.973110 - 0.000005 ≤ g.EstimatedFillRatio (Nat.cast : Nat → ℝ) Real.exp
        ∧ g.EstimatedFillRatio (Nat.cast : Nat → ℝ) Real.exp ≤ 0.973110 + 0.000005)
      ∧ ∃ g, addAll (New 1000) (xs ++ zs) = .ok g ∧ g.n = 1000
        ∧ g.EstimatedFillRatio (Nat.cast : Nat → ℝ) Real.exp = 1 - Real.exp (-4)
        ∧ 0.981684 - 0.000005 ≤ g.EstimatedFillRatio (Nat.cast : Nat → ℝ) Real.exp
        ∧ g.EstimatedFillRatio (Nat.cast : Nat → ℝ) Real.exp ≤ 0.981684 + 0.000005 := by
  constructor
  · obtain ⟨g, hg, -, hgm, hgk, hgn⟩ := addAll_counter_small (xs ++ ys) (New 1000)
      (sound_New 1000 (by decide)) (by rw [List.length_append, hxs, hys]; decide)
    have hgn2 : g.n = 904 := by rw [hgn, List.length_append, hxs, hys]; rfl
    refine ⟨g, hg, hgn2, ?_⟩
    rw [fillRatio_real g 904 hgn2 hgk hgm]
    have h := fill_value_904
    constructor <;> linarith [h.1, h.2]
  · obtain ⟨g, hg, -, hgm, hgk, hgn⟩ := addAll_counter_small (xs ++ zs) (New 1000)
      (sound_New 1000 (by decide)) (by rw [List.length_append, hxs, hzs]; decide)
    have hgn2 : g.n = 1000 := by rw [hgn, List.length_append, hxs, hzs]; rfl
    refine ⟨g, hg, hgn2, ?_⟩
    rw [fillRatio_real g 1000 hgn2 hgk hgm]
    have h := fill_value_1000
    refine ⟨h.1, ?_, ?_⟩ <;> linarith [h.2.1, h.2.2]

/-- Witness of the amended C13 on the items `string(i)`: `0 .. 3`, then `100 .. 999` as in the
test of the source, or `4 .. 999`. -/
theorem fill_ratio_after_904_and_1000_witness :
    (∃ g, addAll (New 1000) ((List.range 4).map runeString
          ++ (List.range' 100 900).map runeString) = .ok g ∧ g.n = 904
        ∧ 0.973110 - 0.000005 ≤ g.EstimatedFillRatio (Nat.cast : Nat → ℝ) Real.exp
        ∧ g.EstimatedFillRatio (Nat.cast : Nat → ℝ) Real.exp ≤ 0.973110 + 0.000005)
      ∧ ∃ g, addAll (New 1000) ((List.range 4).map runeString
          ++ (List.range' 4 996).map runeString) = .ok g ∧ g.n = 1000
        ∧ g.EstimatedFillRatio (Nat.cast : Nat → ℝ) Real.exp = 1 - Real.exp (-4)
        ∧ 0.981684 - 0.000005 ≤ g.EstimatedFillRatio (Nat.cast : Nat → ℝ) Real.exp
        ∧ g.EstimatedFillRatio (Nat.cast : Nat → ℝ) Real.exp ≤ 0.981684 + 0.000005 :=
  fill_ratio_after_904_and_1000 ((List.range 4).map runeString)
    ((List.range' 100 900).map runeString) ((List.range' 4 996).map runeString)
    (by simp) (by simp) (by simp)

end Bloomfilter
